import Mathlib

/-
Verification development for the duty-status timeline engine of the eld-be
repository (src/api/views.py).  Timestamps are modelled as integer
microseconds in the user's local time zone; the zone itself is modelled as a
fixed UTC offset (an integer number of microseconds added to every stored
timestamp), so that `timezone.localtime` becomes addition of the offset.
Python floats are modelled as exact rationals together with an explicit
round-to-nearest-even function for normal-range binary64 values, and Python
`Decimal` arithmetic is modelled with an explicit 28-significant-digit
decimal rounding, mirroring the default decimal context.  Rationals are
represented as explicit numerator/denominator pairs (`Q2`) so that every
arithmetic operation is executable by the kernel; `Q2.toRat` interprets
them back into `ℚ` for specification-side statements.
-/

namespace Eld

/-- Duty statuses, from the `Trip.STATUS_*` constants in models.py. -/
inductive DutyStatus where
  | off_duty
  | sleeper
  | driving
  | on_duty
deriving DecidableEq

/-- A status interval: the shape of both the StatusEvent rows and the
`{"status", "start_time", "end_time"}` dictionaries used by the views.
Times are integer microseconds. -/
structure Seg where
  status : DutyStatus
  start_time : ℤ
  end_time : ℤ
deriving DecidableEq

/-- Microseconds in one calendar day. -/
def usPerDay : ℤ := 86400000000

/-- Local midnight at or before `t` (what `.replace(hour=0, minute=0,
second=0, microsecond=0)` computes on a local datetime). -/
def floorDay (t : ℤ) : ℤ := usPerDay * (t / usPerDay)

/-- The calendar-day index of local time `t` (what `.date()` identifies;
ISO date strings are ordered exactly like this integer). -/
def dayIndex (t : ℤ) : ℤ := t / usPerDay

/- ### Exact fractions

An unnormalized fraction.  All constructors used in this file keep the
denominator positive (`Q2.Wf`); operations preserve that invariant. -/

structure Q2 where
  num : ℤ
  den : ℤ
deriving DecidableEq

/-- Well-formedness: positive denominator. -/
def Q2.Wf (x : Q2) : Prop := 0 < x.den

instance (n : ℕ) : OfNat Q2 n := ⟨⟨(n : ℤ), 1⟩⟩

/-- Embed an integer as a fraction. -/
def Q2.ofInt (n : ℤ) : Q2 := ⟨n, 1⟩

/-- The exact rational value of a fraction. -/
def Q2.toRat (x : Q2) : ℚ := (x.num : ℚ) / (x.den : ℚ)

def Q2.add (x y : Q2) : Q2 := ⟨x.num * y.den + y.num * x.den, x.den * y.den⟩

def Q2.sub (x y : Q2) : Q2 := ⟨x.num * y.den - y.num * x.den, x.den * y.den⟩

def Q2.mul (x y : Q2) : Q2 := ⟨x.num * y.num, x.den * y.den⟩

def Q2.neg (x : Q2) : Q2 := ⟨-x.num, x.den⟩

/-- Exact division; the result denominator is forced positive.  Division
by zero yields 0 (never exercised by the embedded code paths). -/
def Q2.div (x y : Q2) : Q2 :=
  if 0 < y.num then ⟨x.num * y.den, x.den * y.num⟩
  else if y.num < 0 then ⟨-(x.num * y.den), -(x.den * y.num)⟩
  else ⟨0, 1⟩

/-- Strict comparison by cross multiplication (exact when both
denominators are positive). -/
def Q2.blt (x y : Q2) : Bool := x.num * y.den < y.num * x.den

/-- Non-strict comparison by cross multiplication (exact when both
denominators are positive). -/
def Q2.ble (x y : Q2) : Bool := x.num * y.den ≤ y.num * x.den

/-- Floor of a fraction (exact when the denominator is positive, since
integer division rounds toward negative infinity for positive divisors). -/
def Q2.floor (x : Q2) : ℤ := x.num / x.den

/- ### Rounding models for Python float and Decimal arithmetic -/

/-- Round a fraction to the nearest integer, ties to even. -/
def roundHalfEven (x : Q2) : ℤ :=
  let f := x.floor
  let r := x.sub (Q2.ofInt f)
  if r.blt ⟨1, 2⟩ then f
  else if Q2.blt ⟨1, 2⟩ r then f + 1
  else if f % 2 = 0 then f else f + 1

/-- Scale a positive fraction into the interval `[1, base)` by repeated
multiplication/division by the base, returning the scaled value and the
binary/decimal exponent.  Fuel-bounded structural recursion; the fuel
covers every exponent of a normal binary64 value or a 28-digit decimal. -/
def scaleAux (base : ℤ) : ℕ → Q2 → ℤ → Q2 × ℤ
  | 0, q, e => (q, e)
  | n + 1, q, e =>
    if q.blt 1 then scaleAux base n (q.mul (Q2.ofInt base)) (e - 1)
    else if Q2.ble (Q2.ofInt base) q then scaleAux base n (q.div (Q2.ofInt base)) (e + 1)
    else (q, e)

/-- Integer power of the base with an integer exponent, as a fraction. -/
def qpow (base : ℤ) (z : ℤ) : Q2 :=
  if 0 ≤ z then ⟨base ^ z.toNat, 1⟩ else ⟨1, base ^ (-z).toNat⟩

/-- Round a positive fraction to `digits` significant base-`base` digits,
ties to even. -/
def roundSigPos (base : ℤ) (digits : ℕ) (q : Q2) : Q2 :=
  let p := scaleAux base 4200 q 0
  let m := roundHalfEven (p.1.mul (Q2.ofInt (base ^ (digits - 1))))
  (Q2.ofInt m).mul (qpow base (p.2 - (digits - 1 : ℕ)))

/-- Round a fraction to `digits` significant base-`base` digits, ties to
even, symmetric in sign. -/
def roundSig (base : ℤ) (digits : ℕ) (q : Q2) : Q2 :=
  if q.num = 0 then 0
  else if q.blt 0 then (roundSigPos base digits q.neg).neg
  else roundSigPos base digits q

/-- Round a fraction to the nearest binary64 value (53 mantissa bits,
round to nearest, ties to even); models the result of a Python float
operation whose exact value is the argument.  Valid in the normal range
of binary64, which covers every quantity the views compute. -/
def roundD (q : Q2) : Q2 := roundSig 2 53 q

/-- Round to 28 significant decimal digits: the default decimal context
used for Decimal division and addition. -/
def decRound28 (q : Q2) : Q2 := roundSig 10 28 q

/-- Python float true division, correctly rounded. -/
def pyDiv (a b : Q2) : Q2 := roundD (a.div b)

/-- Python float multiplication, correctly rounded. -/
def pyMul (a b : Q2) : Q2 := roundD (a.mul b)

/-- Python float addition, correctly rounded. -/
def pyAdd (a b : Q2) : Q2 := roundD (a.add b)

/-- Decimal division under the default 28-digit context. -/
def decDiv28 (a b : Q2) : Q2 := decRound28 (a.div b)

/-- Decimal addition under the default 28-digit context. -/
def decAdd28 (a b : Q2) : Q2 := decRound28 (a.add b)

/-- Exact half-even rounding to 2 decimal places (Python `round` on a
Decimal value). -/
def quantize2 (q : Q2) : Q2 := ⟨roundHalfEven (q.mul 100), 100⟩

/-- Python `round(x, 2)` on a float: correctly rounded half-even decimal
rounding of the exact value, converted back to the nearest binary64. -/
def pyRound2 (q : Q2) : Q2 := roundD (quantize2 q)

/- ### HOS evaluator: `_calculate_warnings` (src/api/views.py:1121-1167) -/

/-- The running accumulators of `_calculate_warnings`.  Durations are
integer microseconds (`timedelta` is exact at microsecond resolution). -/
structure HosState where
  shift_start : Option ℤ
  last_break_end : Option ℤ
  driving_since_break : ℤ
  driving_total : ℤ
  on_duty_total : ℤ
deriving DecidableEq

/-- Initial accumulator state of `_calculate_warnings`. -/
def hosInit : HosState :=
  ⟨none, none, 0, 0, 0⟩

/-- Whether a status is Off-Duty or Sleeper-Berth (the
`{STATUS_OFF_DUTY, STATUS_SLEEPER}` membership tests). -/
def isRest (s : DutyStatus) : Bool :=
  s = DutyStatus.off_duty ∨ s = DutyStatus.sleeper

/-- One iteration of the event loop of `_calculate_warnings`. -/
def hosStep (st : HosState) (ev : Seg) : HosState :=
  let d := ev.end_time - ev.start_time
  if isRest ev.status ∧ d ≥ 36000000000 then
    ⟨some ev.end_time, some ev.end_time, 0, 0, 0⟩
  else
    let st1 :=
      if isRest ev.status ∧ d ≥ 1800000000 then
        { st with last_break_end := some ev.end_time, driving_since_break := 0 }
      else st
    let st2 :=
      if st1.shift_start = none then { st1 with shift_start := some ev.start_time } else st1
    let st3 :=
      if ev.status = DutyStatus.driving then
        { st2 with driving_total := st2.driving_total + d,
                   driving_since_break := st2.driving_since_break + d }
      else st2
    if ev.status = DutyStatus.driving ∨ ev.status = DutyStatus.on_duty then
      { st3 with on_duty_total := st3.on_duty_total + d }
    else st3

def warn11 : String := "Driving time exceeds 11-hour limit since last 10-hour rest."
def warn14 : String := "On-duty window exceeds 14-hour limit since last 10-hour rest."
def warnBreak : String := "30-minute break required after 8 cumulative driving hours."
def warnCycle : String := "Planned work exceeds 70-hour / 8-day cycle limit."

/-- The hours conversion `Decimal(on_duty_total.total_seconds() / 3600)`:
`total_seconds` divides the exact microsecond count by 10^6 in binary64,
the result is divided by 3600 in binary64 again, and `Decimal(float)` is
exact. -/
def onDutyHoursFloat (n : ℤ) : Q2 :=
  pyDiv (pyDiv (Q2.ofInt n) ⟨1000000, 1⟩) ⟨3600, 1⟩

/-- The post-scan warning emission of `_calculate_warnings`.  The final
Decimal addition and the comparison against `Decimal("70")` never change
the comparison's outcome at these magnitudes, so they are modelled
exactly. -/
def hosWarnings (st : HosState) (cycle_used : Q2) : List String :=
  (if st.driving_total > 39600000000 then [warn11] else []) ++
  (if st.on_duty_total > 50400000000 then [warn14] else []) ++
  (if st.driving_since_break > 28800000000 then [warnBreak] else []) ++
  (if Q2.blt 70 (cycle_used.add (onDutyHoursFloat st.on_duty_total)) then [warnCycle] else [])

/-- Embedding of `_calculate_warnings`: the events parameter is the trip's
closed StatusEvent rows as returned by `order_by("start_time")`, and
`cycle_used` is the trip's `cycle_used_hours`. -/
def calculate_warnings (events : List Seg) (cycle_used : Q2) : List String :=
  hosWarnings (events.foldl hosStep hosInit) cycle_used

end Eld

namespace Eld

/- ### Bridging lemmas between Q2 and ℚ -/

instance (x : Q2) : Decidable x.Wf :=
  decidable_of_iff (0 < x.den) Iff.rfl

theorem Q2.add_wf {x y : Q2} (hx : x.Wf) (hy : y.Wf) : (x.add y).Wf :=
  mul_pos hx hy

theorem Q2.qpow_wf {base : ℤ} (hb : 0 < base) (z : ℤ) : (qpow base z).Wf := by
  unfold qpow Q2.Wf
  split
  · exact one_pos
  · exact pow_pos hb _

theorem roundSigPos_wf {base : ℤ} (hb : 0 < base) (digits : ℕ) (q : Q2) :
    (roundSigPos base digits q).Wf := by
  unfold roundSigPos Q2.Wf Q2.mul Q2.ofInt
  simpa using (Q2.qpow_wf hb _)

theorem roundSig_wf {base : ℤ} (hb : 0 < base) (digits : ℕ) (q : Q2) :
    (roundSig base digits q).Wf := by
  unfold roundSig
  split
  · exact one_pos
  split
  · exact roundSigPos_wf hb digits q.neg
  · exact roundSigPos_wf hb digits q

theorem roundD_wf (q : Q2) : (roundD q).Wf :=
  roundSig_wf (by norm_num) 53 q

theorem onDutyHoursFloat_wf (n : ℤ) : (onDutyHoursFloat n).Wf :=
  roundD_wf _

theorem Q2.blt_iff {x y : Q2} (hx : x.Wf) (hy : y.Wf) :
    x.blt y = true ↔ x.toRat < y.toRat := by
  unfold Q2.blt Q2.toRat
  rw [div_lt_div_iff₀ (by exact_mod_cast hx) (by exact_mod_cast hy)]
  rw [decide_eq_true_eq]
  exact_mod_cast Iff.rfl

theorem Q2.toRat_add {x y : Q2} (hx : x.Wf) (hy : y.Wf) :
    (x.add y).toRat = x.toRat + y.toRat := by
  unfold Q2.add Q2.toRat
  have hb : ((x.den : ℚ)) ≠ 0 := by exact_mod_cast hx.ne'
  have hd : ((y.den : ℚ)) ≠ 0 := by exact_mod_cast hy.ne'
  push_cast
  field_simp

/-- The cycle warning appears in the emitted list exactly when the final
cycle comparison holds: the other three branches emit different strings. -/
theorem warnCycle_mem_iff (st : HosState) (c : Q2) :
    warnCycle ∈ hosWarnings st c ↔
      Q2.blt 70 (c.add (onDutyHoursFloat st.on_duty_total)) = true := by
  unfold hosWarnings
  split_ifs <;> simp_all [warn11, warn14, warnBreak, warnCycle]

/- ### Claim C4: single 12-hour Driving interval -/

/-- Claim C4: for a timeline consisting of a single Driving interval of 12
hours with no prior history and cycle_used_hours = 0, the returned warning
list contains exactly the string "Driving time exceeds 11-hour limit since
last 10-hour rest.", and the 14-hour on-duty warning is absent.  (The full
list also carries the 30-minute-break warning, per the 8-hour rule cited by
the claim.) -/
theorem single_driving_12h_warnings :
    calculate_warnings [⟨DutyStatus.driving, 0, 43200000000⟩] 0 = [warn11, warnBreak] ∧
    warn11 ∈ calculate_warnings [⟨DutyStatus.driving, 0, 43200000000⟩] 0 ∧
    warn14 ∉ calculate_warnings [⟨DutyStatus.driving, 0, 43200000000⟩] 0 := by
  refine ⟨by decide, by decide, by decide⟩

/- ### Claim C6: the 70-hour cycle-limit threshold -/

/-- Claim C6 counterexample: with cycle_used_hours = 65.01 and a single
4h59m24s On-Duty interval (exactly 4.99 hours of on-duty time), the code
emits the cycle-limit warning although the exact sum 65.01 + 4.99 = 70 is
not strictly greater than 70: the float conversion
`on_duty_total.total_seconds() / 3600` rounds 4.99 upward. -/
theorem cycle_limit_not_exact_at_65_01 :
    warnCycle ∈ calculate_warnings [⟨DutyStatus.on_duty, 0, 17964000000⟩] ⟨6501, 100⟩ ∧
    ¬ ((6501 : ℚ) / 100 + 17964000000 / 3600000000 > 70) := by
  constructor
  · decide
  · norm_num

/-- Claim C6, amended: the cycle-limit warning is emitted iff
cycle_used_hours plus the on-duty total converted to hours through
binary64 float arithmetic (total_seconds, then division by 3600) exceeds
70; the conversion agrees with exact arithmetic away from representation
boundaries, and the claim's two scenarios behave as stated
(65.00 + 6.5h fires, 65.00 + 4.0h does not). -/
theorem cycle_limit_threshold (events : List Seg) (c : Q2) (hc : c.Wf) :
    (warnCycle ∈ calculate_warnings events c ↔
      c.toRat + (onDutyHoursFloat (events.foldl hosStep hosInit).on_duty_total).toRat > 70) ∧
    warnCycle ∈ calculate_warnings [⟨DutyStatus.on_duty, 0, 23400000000⟩] ⟨65, 1⟩ ∧
    warnCycle ∉ calculate_warnings [⟨DutyStatus.on_duty, 0, 14400000000⟩] ⟨65, 1⟩ := by
  refine ⟨?_, by decide, by decide⟩
  have hW : (c.add (onDutyHoursFloat (events.foldl hosStep hosInit).on_duty_total)).Wf :=
    Q2.add_wf hc (onDutyHoursFloat_wf _)
  have h70 : ((70 : Q2)).Wf := by decide
  have htoRat : ((70 : Q2)).toRat = 70 := by
    have : (70 : Q2) = ⟨70, 1⟩ := rfl
    rw [this]
    unfold Q2.toRat
    norm_num
  show warnCycle ∈ hosWarnings (events.foldl hosStep hosInit) c ↔ _
  rw [warnCycle_mem_iff, Q2.blt_iff h70 hW, htoRat,
    Q2.toRat_add hc (onDutyHoursFloat_wf _)]

/-- Witness for the amended C6 theorem at the claim's own scenario. -/
theorem cycle_limit_threshold_witness :
    Q2.Wf ⟨65, 1⟩ ∧
    (warnCycle ∈ calculate_warnings [⟨DutyStatus.on_duty, 0, 23400000000⟩] ⟨65, 1⟩ ↔
      Q2.toRat ⟨65, 1⟩ +
        (onDutyHoursFloat
          (([⟨DutyStatus.on_duty, 0, 23400000000⟩] : List Seg).foldl hosStep
            hosInit).on_duty_total).toRat > 70) :=
  ⟨by decide, (cycle_limit_threshold [⟨DutyStatus.on_duty, 0, 23400000000⟩] ⟨65, 1⟩ (by decide)).1⟩

/- ### Stable sort by start time (Python list.sort / sorted with key
start_time is a stable sort; any stable sort by the same key computes the
same list, so it is modelled by insertion sort that inserts after equal
keys) -/

/-- Comparison by interval start. -/
def leStart (a b : Seg) : Prop := a.start_time ≤ b.start_time

instance (a b : Seg) : Decidable (leStart a b) :=
  decidable_of_iff (a.start_time ≤ b.start_time) Iff.rfl

/-- Insert an interval after every element whose start is not later:
the insertion step of a stable insertion sort. -/
def insertByStart (x : Seg) : List Seg → List Seg
  | [] => [x]
  | y :: l => if y.start_time ≤ x.start_time then y :: insertByStart x l else x :: y :: l

/-- Stable sort by start time. -/
def sortByStart (l : List Seg) : List Seg :=
  l.foldl (fun acc x => insertByStart x acc) []

theorem insertByStart_perm (x : Seg) (l : List Seg) :
    (insertByStart x l).Perm (x :: l) := by
  induction l with
  | nil => exact List.Perm.refl _
  | cons y t ih =>
    unfold insertByStart
    split
    · exact ((ih.cons y).trans (List.Perm.swap x y t))
    · exact List.Perm.refl _

theorem insertByStart_sorted (x : Seg) (l : List Seg) (h : l.Pairwise leStart) :
    (insertByStart x l).Pairwise leStart := by
  induction l with
  | nil => simp [insertByStart, List.pairwise_singleton]
  | cons y t ih =>
    rw [List.pairwise_cons] at h
    unfold insertByStart
    split
    · rename_i hle
      rw [List.pairwise_cons]
      refine ⟨?_, ih h.2⟩
      intro z hz
      rcases List.mem_cons.mp ((insertByStart_perm x t).mem_iff.mp hz) with hz | hz
      · subst hz
        exact hle
      · exact h.1 z hz
    · rename_i hlt
      rw [List.pairwise_cons]
      refine ⟨?_, List.pairwise_cons.mpr h⟩
      intro z hz
      rcases hz with _ | hz
      · exact le_of_lt (lt_of_not_le hlt)
      · rename_i hz
        exact le_trans (le_of_lt (lt_of_not_le hlt)) (h.1 z hz)

theorem insertByStart_filter (x : Seg) (l : List Seg) (h : l.Pairwise leStart) (k : ℤ) :
    (insertByStart x l).filter (fun s => s.start_time = k) =
      l.filter (fun s => s.start_time = k) ++ (if x.start_time = k then [x] else []) := by
  induction l with
  | nil =>
    by_cases hx : x.start_time = k <;> simp [insertByStart, hx]
  | cons y t ih =>
    rw [List.pairwise_cons] at h
    unfold insertByStart
    split
    · rename_i hle
      rw [List.filter_cons, List.filter_cons]
      split
      · rw [ih h.2]
        simp
      · exact ih h.2
    · rename_i hlt
      have hxy : x.start_time < y.start_time := lt_of_not_le hlt
      rw [List.filter_cons]
      split
      · rename_i hxk
        have hxk' : x.start_time = k := by simpa using hxk
        have hnil : (y :: t).filter (fun s => s.start_time = k) = [] := by
          rw [List.filter_eq_nil_iff]
          intro z hz
          have hyz : y.start_time ≤ z.start_time := by
            rcases hz with _ | hz
            · exact le_refl _
            · rename_i hz
              exact h.1 z hz
          simp only [decide_eq_true_eq]
          intro hzk
          omega
        rw [hnil, if_pos hxk']
        simp
      · rename_i hxk
        have hxk' : ¬ x.start_time = k := by simpa using hxk
        rw [if_neg hxk']
        simp

theorem foldlInsert_spec (l acc : List Seg) (hacc : acc.Pairwise leStart) :
    (l.foldl (fun a x => insertByStart x a) acc).Pairwise leStart ∧
    (l.foldl (fun a x => insertByStart x a) acc).Perm (acc ++ l) ∧
    ∀ k : ℤ, (l.foldl (fun a x => insertByStart x a) acc).filter (fun s => s.start_time = k) =
      acc.filter (fun s => s.start_time = k) ++ l.filter (fun s => s.start_time = k) := by
  induction l generalizing acc with
  | nil =>
    refine ⟨hacc, by simp, ?_⟩
    intro k
    simp
  | cons x t ih =>
    have hins : (insertByStart x acc).Pairwise leStart := insertByStart_sorted x acc hacc
    obtain ⟨hs, hp, hf⟩ := ih (insertByStart x acc) hins
    simp only [List.foldl_cons]
    refine ⟨hs, ?_, ?_⟩
    · refine hp.trans ?_
      have h1 : (insertByStart x acc ++ t).Perm ((x :: acc) ++ t) :=
        (insertByStart_perm x acc).append_right t
      refine h1.trans ?_
      have h2 : ((x :: acc) ++ t).Perm (acc ++ (x :: t)) := by
        simpa using List.perm_middle.symm
      exact h2
    · intro k
      rw [hf k, insertByStart_filter x acc hacc k, List.filter_cons]
      by_cases hxk : x.start_time = k <;> simp [hxk]

theorem sortByStart_sorted (l : List Seg) : (sortByStart l).Pairwise leStart :=
  (foldlInsert_spec l [] (List.Pairwise.nil)).1

theorem sortByStart_perm (l : List Seg) : (sortByStart l).Perm l :=
  (foldlInsert_spec l [] (List.Pairwise.nil)).2.1

theorem sortByStart_filter (l : List Seg) (k : ℤ) :
    (sortByStart l).filter (fun s => s.start_time = k) =
      l.filter (fun s => s.start_time = k) :=
  (foldlInsert_spec l [] (List.Pairwise.nil)).2.2 k

theorem insertByStart_append (x : Seg) (l : List Seg) (h : ∀ y ∈ l, leStart y x) :
    insertByStart x l = l ++ [x] := by
  induction l with
  | nil => rfl
  | cons y t ih =>
    unfold insertByStart
    have hle : y.start_time ≤ x.start_time := h y (List.mem_cons_self y t)
    rw [if_pos hle]
    rw [ih (fun z hz => h z (List.mem_cons_of_mem y hz))]
    rfl

theorem foldlInsert_of_sorted (l : List Seg) : ∀ acc : List Seg,
    (acc ++ l).Pairwise leStart →
    l.foldl (fun a x => insertByStart x a) acc = acc ++ l := by
  induction l with
  | nil => intro acc _; simp
  | cons x t ih =>
    intro acc h
    have hins : insertByStart x acc = acc ++ [x] := by
      refine insertByStart_append x acc ?_
      intro y hy
      exact (List.pairwise_append.mp h).2.2 y hy x (List.mem_cons_self x t)
    have h' : ((acc ++ [x]) ++ t).Pairwise leStart := by
      rw [List.append_assoc]
      simpa using h
    calc (x :: t).foldl (fun a x => insertByStart x a) acc
        = t.foldl (fun a x => insertByStart x a) (acc ++ [x]) := by
          rw [List.foldl_cons, hins]
      _ = (acc ++ [x]) ++ t := ih (acc ++ [x]) h'
      _ = acc ++ (x :: t) := by simp

theorem sortByStart_eq_self (l : List Seg) (h : l.Pairwise leStart) :
    sortByStart l = l := by
  unfold sortByStart
  simpa using foldlInsert_of_sorted l [] (by simpa using h)

/- ### Timeline assembler: `_collect_eld_segments` (src/api/views.py:1003-1028) -/

/-- The pre-sort list assembled by `_collect_eld_segments`, in insertion
order: closed StatusEvent rows with `end_time <= start_time` skipped,
followed by the synthesized open interval when the trip carries an open
status pair and the as-of time (completed_at, else now) is strictly after
its start. -/
def assembledPre (events : List Seg) (openState : Option (DutyStatus × ℤ))
    (completed_at : Option ℤ) (now : ℤ) : List Seg :=
  let asOf := completed_at.getD now
  events.filter (fun e => e.start_time < e.end_time) ++
    (match openState with
     | some st => if st.2 < asOf then [⟨st.1, st.2, asOf⟩] else []
     | none => [])

/-- Embedding of `_collect_eld_segments`: assemble, then sort stably by
start time.  The events parameter is the trip's closed StatusEvent rows,
`openState` the (current_status, current_status_started_at) pair when both
are set, `completed_at` the trip's completion time, and `now` the clock
value used for a still-open interval. -/
def collect_eld_segments (events : List Seg) (openState : Option (DutyStatus × ℤ))
    (completed_at : Option ℤ) (now : ℤ) : List Seg :=
  sortByStart (assembledPre events openState completed_at now)

/-- Claim C7: every assembled interval satisfies end > start; the output
is a permutation of the filtered history plus (iff as-of is strictly after
its start) the synthesized open interval; it is sorted by start time; and
ties keep their insertion order (the entries with any fixed start time
appear exactly as in the pre-sort assembly). -/
theorem collect_eld_segments_spec (events : List Seg)
    (openState : Option (DutyStatus × ℤ)) (completed_at : Option ℤ) (now : ℤ) :
    (∀ s ∈ collect_eld_segments events openState completed_at now,
      s.start_time < s.end_time) ∧
    (collect_eld_segments events openState completed_at now).Perm
      (assembledPre events openState completed_at now) ∧
    (collect_eld_segments events openState completed_at now).Pairwise leStart ∧
    (∀ k : ℤ, (collect_eld_segments events openState completed_at now).filter
        (fun s => s.start_time = k) =
      (assembledPre events openState completed_at now).filter
        (fun s => s.start_time = k)) ∧
    (∀ st b, openState = some (st, b) →
      ((⟨st, b, completed_at.getD now⟩ : Seg) ∈
          collect_eld_segments events openState completed_at now ↔
        b < completed_at.getD now)) := by
  have hperm : (collect_eld_segments events openState completed_at now).Perm
      (assembledPre events openState completed_at now) :=
    sortByStart_perm _
  have hmem : ∀ s ∈ assembledPre events openState completed_at now,
      s.start_time < s.end_time := by
    intro s hs
    unfold assembledPre at hs
    rcases List.mem_append.mp hs with hs | hs
    · exact of_decide_eq_true (List.mem_filter.mp hs).2
    · rcases openState with _ | st
      · simp at hs
      · have hs2 : s ∈ (if st.2 < completed_at.getD now then
            [(⟨st.1, st.2, completed_at.getD now⟩ : Seg)] else []) := hs
        by_cases hlt : st.2 < completed_at.getD now
        · rw [if_pos hlt] at hs2
          rcases List.mem_singleton.mp hs2 with rfl
          exact hlt
        · rw [if_neg hlt] at hs2
          simp at hs2
  refine ⟨?_, hperm, sortByStart_sorted _, fun k => sortByStart_filter _ k, ?_⟩
  · intro s hs
    exact hmem s (hperm.mem_iff.mp hs)
  · intro st b hop
    subst hop
    constructor
    · intro hin
      have := hmem _ (hperm.mem_iff.mp hin)
      exact this
    · intro hlt
      refine hperm.mem_iff.mpr ?_
      unfold assembledPre
      refine List.mem_append.mpr (Or.inr ?_)
      simp only [if_pos hlt]
      exact List.mem_singleton_self _

/-- Witness for the C7 theorem at a concrete trip state: one valid and one
degenerate closed event, plus an open Driving interval, sorted as of time
100. -/
theorem collect_eld_segments_spec_witness :
    (∀ s ∈ collect_eld_segments
        [⟨DutyStatus.off_duty, 5, 3⟩, ⟨DutyStatus.on_duty, 0, 4⟩]
        (some (DutyStatus.driving, 10)) none 100,
      s.start_time < s.end_time) ∧
    (collect_eld_segments
        [⟨DutyStatus.off_duty, 5, 3⟩, ⟨DutyStatus.on_duty, 0, 4⟩]
        (some (DutyStatus.driving, 10)) none 100).Perm
      (assembledPre [⟨DutyStatus.off_duty, 5, 3⟩, ⟨DutyStatus.on_duty, 0, 4⟩]
        (some (DutyStatus.driving, 10)) none 100) ∧
    (collect_eld_segments
        [⟨DutyStatus.off_duty, 5, 3⟩, ⟨DutyStatus.on_duty, 0, 4⟩]
        (some (DutyStatus.driving, 10)) none 100).Pairwise leStart ∧
    (∀ k : ℤ, (collect_eld_segments
        [⟨DutyStatus.off_duty, 5, 3⟩, ⟨DutyStatus.on_duty, 0, 4⟩]
        (some (DutyStatus.driving, 10)) none 100).filter
        (fun s => s.start_time = k) =
      (assembledPre [⟨DutyStatus.off_duty, 5, 3⟩, ⟨DutyStatus.on_duty, 0, 4⟩]
        (some (DutyStatus.driving, 10)) none 100).filter
        (fun s => s.start_time = k)) ∧
    (∀ st b, (some (DutyStatus.driving, 10) : Option (DutyStatus × ℤ)) = some (st, b) →
      ((⟨st, b, (none : Option ℤ).getD 100⟩ : Seg) ∈
          collect_eld_segments [⟨DutyStatus.off_duty, 5, 3⟩, ⟨DutyStatus.on_duty, 0, 4⟩]
            (some (DutyStatus.driving, 10)) none 100 ↔
        b < (none : Option ℤ).getD 100)) :=
  collect_eld_segments_spec
    [⟨DutyStatus.off_duty, 5, 3⟩, ⟨DutyStatus.on_duty, 0, 4⟩]
    (some (DutyStatus.driving, 10)) none 100

/- ### Claim C3: what the HOS evaluator consumes -/

/-- Claim C3 counterexample: a trip in the state reached right after a
status-change event (no closed history yet, open Driving interval started
at 0, clock now at 12h).  The timeline fed to the ELD day-log builder
contains the synthesized 12-hour Driving interval, whose HOS evaluation
produces warnings, but `_calculate_warnings` reads only the closed
StatusEvent rows and returns no warning — the two components do not
consume the same interval sequence. -/
theorem warnings_ignore_open_interval :
    calculate_warnings [] 0 = [] ∧
    collect_eld_segments [] (some (DutyStatus.driving, 0)) none 43200000000 =
      [⟨DutyStatus.driving, 0, 43200000000⟩] ∧
    calculate_warnings
      (collect_eld_segments [] (some (DutyStatus.driving, 0)) none 43200000000) 0 ≠ [] := by
  refine ⟨by decide, by decide, by decide⟩

/-- Claim C3, amended: `_calculate_warnings` consumes the closed history
only.  For a trip with no open interval (as after completion) whose closed
events are chronological with end > start, the warning list equals the HOS
rules run over exactly the sequence fed to the ELD day-log builder. -/
theorem warnings_match_day_log_input_when_closed (events : List Seg) (c : Q2)
    (completed_at : Option ℤ) (now : ℤ)
    (hvalid : ∀ e ∈ events, e.start_time < e.end_time)
    (hsorted : events.Pairwise leStart) :
    calculate_warnings (collect_eld_segments events none completed_at now) c =
      calculate_warnings events c := by
  have hfilter : events.filter (fun e => e.start_time < e.end_time) = events := by
    rw [List.filter_eq_self]
    intro e he
    exact decide_eq_true (hvalid e he)
  have hpre : assembledPre events none completed_at now = events := by
    unfold assembledPre
    simpa using hfilter
  unfold collect_eld_segments
  rw [hpre, sortByStart_eq_self events hsorted]

/-- Witness for the amended C3 theorem on a concrete completed trip. -/
theorem warnings_match_day_log_input_witness :
    calculate_warnings
        (collect_eld_segments
          [⟨DutyStatus.driving, 0, 7200000000⟩, ⟨DutyStatus.off_duty, 7200000000, 9000000000⟩]
          none (some 9000000000) 9000000000) ⟨10, 1⟩ =
      calculate_warnings
        [⟨DutyStatus.driving, 0, 7200000000⟩, ⟨DutyStatus.off_duty, 7200000000, 9000000000⟩]
        ⟨10, 1⟩ :=
  warnings_match_day_log_input_when_closed
    [⟨DutyStatus.driving, 0, 7200000000⟩, ⟨DutyStatus.off_duty, 7200000000, 9000000000⟩]
    ⟨10, 1⟩ (some 9000000000) 9000000000 (by decide) (by decide)

/- ### Route stop planner: `_estimate_stops` (src/api/views.py:943-1000)

The inputs are the float values `driving_duration_hours` and
`distance_miles` passed by `_build_route_summary`.  The advisory label
strings are presentation-only and are not modelled; the Python sort key
`(eta_hours, type)` orders the type strings "break" < "fuel" < "rest",
which `typeRank` reproduces. -/

inductive StopType where
  | breakStop
  | fuelStop
  | restStop
deriving DecidableEq

/-- Rank of the stop type in the lexicographic order of the Python type
strings "break" < "fuel" < "rest". -/
def typeRank : StopType → ℕ
  | .breakStop => 0
  | .fuelStop => 1
  | .restStop => 2

structure Stop where
  type : StopType
  eta_hours : Q2
  duration_hours : Q2
deriving DecidableEq

/-- Python `min` on floats (returns the first argument on ties). -/
def pyMin (a b : Q2) : Q2 := if a.ble b then a else b

/-- Python `max` on floats (returns the first argument on ties). -/
def pyMax (a b : Q2) : Q2 := if b.ble a then a else b

/-- One suggested fuel stop at the given mile marker:
`eta_hours = round(max(0.0, min(T, T * marker / D)), 2)`, duration 0.5 h. -/
def fuelStopAt (T D : Q2) (marker : ℤ) : Stop :=
  ⟨StopType.fuelStop,
    pyRound2 (pyMax 0 (pyMin T (pyMul T (pyDiv (Q2.ofInt marker) D)))),
    ⟨1, 2⟩⟩

/-- The fuel-stop loop: indices from `idx` while the marker is strictly
below the distance, at most `n` more iterations (`n` is instantiated with
the loop bound `int(distance_miles // 1000)`). -/
def fuelGo (T D : Q2) : ℤ → ℕ → List Stop
  | _, 0 => []
  | idx, n + 1 =>
    if D.ble (Q2.ofInt (idx * 1000)) then []
    else fuelStopAt T D (idx * 1000) :: fuelGo T D (idx + 1) n

/-- The loop bound `int(distance_miles // FUEL_STOP_INTERVAL_MILES)`
(float floor division is exact at route magnitudes). -/
def fuelCount (D : Q2) : ℕ := ((D.div ⟨1000, 1⟩).floor).toNat

/-- All suggested fuel stops of `_estimate_stops`. -/
def fuelStopsList (T D : Q2) : List Stop := fuelGo T D 1 (fuelCount D)

/-- The break loop: one 30-minute break at 8, 16, 24, ... while the break
hour does not exceed the driving duration.  The fuel bound covers every
iteration of the Python while loop in the normal float range. -/
def breakGo (T : Q2) : Q2 → ℕ → List Stop
  | _, 0 => []
  | h, n + 1 =>
    if h.ble T then
      ⟨StopType.breakStop, pyRound2 h, ⟨1, 2⟩⟩ :: breakGo T (pyAdd h ⟨8, 1⟩) n
    else []

/-- Iteration bound for the break loop. -/
def breakFuel (T : Q2) : ℕ := ((T.div ⟨8, 1⟩).floor).toNat + 1

/-- The rest suggestions: a 10-hour reset at the 11-hour mark when the
duration reaches 11 hours, and another at the 70-hour mark when it
reaches 70. -/
def restStops (T : Q2) : List Stop :=
  (if Q2.ble ⟨11, 1⟩ T then [⟨StopType.restStop, ⟨11, 1⟩, ⟨10, 1⟩⟩] else []) ++
  (if Q2.ble ⟨70, 1⟩ T then [⟨StopType.restStop, ⟨70, 1⟩, ⟨10, 1⟩⟩] else [])

/-- Stable comparison for the final `stops.sort(key=(eta_hours, type))`. -/
def stopLe (a b : Stop) : Bool :=
  if a.eta_hours.blt b.eta_hours then true
  else if b.eta_hours.blt a.eta_hours then false
  else typeRank a.type ≤ typeRank b.type

/-- Insertion step of the stable sort of stops. -/
def insertStop (x : Stop) : List Stop → List Stop
  | [] => [x]
  | y :: l => if stopLe y x then y :: insertStop x l else x :: y :: l

/-- Stable sort of the stop list by `(eta_hours, type)`. -/
def sortStops (l : List Stop) : List Stop :=
  l.foldl (fun acc x => insertStop x acc) []

/-- Embedding of `_estimate_stops`. -/
def estimate_stops (T D : Q2) : List Stop :=
  if T.ble 0 then []
  else
    sortStops
      ((if Q2.blt 0 D then fuelStopsList T D else []) ++
        breakGo T ⟨8, 1⟩ (breakFuel T) ++ restStops T)

/- ### Claim C5: fuel stops -/

/-- The full 1,000-mile increments strictly below the distance, written
with the loop's own bound: indices 1 .. int(D // 1000) whose marker is
strictly less than D (every such increment lies below that bound). -/
def markersBelow (D : Q2) : List ℤ :=
  ((List.range (fuelCount D)).map (fun j => 1 + Int.ofNat j)).filter
    (fun k => Q2.blt (Q2.ofInt (k * 1000)) D)

theorem insertStop_perm (x : Stop) (l : List Stop) :
    (insertStop x l).Perm (x :: l) := by
  induction l with
  | nil => exact List.Perm.refl _
  | cons y t ih =>
    unfold insertStop
    split
    · exact ((ih.cons y).trans (List.Perm.swap x y t))
    · exact List.Perm.refl _

theorem foldlInsertStop_perm (l : List Stop) : ∀ acc : List Stop,
    (l.foldl (fun a x => insertStop x a) acc).Perm (acc ++ l) := by
  induction l with
  | nil => intro acc; simp
  | cons x t ih =>
    intro acc
    simp only [List.foldl_cons]
    refine (ih (insertStop x acc)).trans ?_
    refine ((insertStop_perm x acc).append_right t).trans ?_
    simpa using List.perm_middle.symm

theorem sortStops_perm (l : List Stop) : (sortStops l).Perm l := by
  simpa using foldlInsertStop_perm l []

theorem breakGo_no_fuel (T : Q2) : ∀ (n : ℕ) (h : Q2),
    (breakGo T h n).filter (fun s => s.type = StopType.fuelStop) = [] := by
  intro n
  induction n with
  | zero => intro h; rfl
  | succ n ih =>
    intro h
    unfold breakGo
    split
    · rw [List.filter_cons]
      simp only [decide_eq_true_eq]
      rw [if_neg (by intro hc; cases hc)]
      exact ih (pyAdd h ⟨8, 1⟩)
    · rfl

theorem restStops_no_fuel (T : Q2) :
    (restStops T).filter (fun s => s.type = StopType.fuelStop) = [] := by
  unfold restStops
  split_ifs <;> decide

theorem fuelGo_all_fuel (T D : Q2) : ∀ (n : ℕ) (idx : ℤ),
    (fuelGo T D idx n).filter (fun s => s.type = StopType.fuelStop) = fuelGo T D idx n := by
  intro n
  induction n with
  | zero => intro idx; rfl
  | succ n ih =>
    intro idx
    unfold fuelGo
    split
    · rfl
    · rw [List.filter_cons]
      simp only [decide_eq_true_eq]
      have hty : (fuelStopAt T D (idx * 1000)).type = StopType.fuelStop := rfl
      rw [if_pos hty]
      rw [ih (idx + 1)]

theorem Q2.blt_ofInt_left (m : ℤ) (D : Q2) :
    Q2.blt (Q2.ofInt m) D = true ↔ m * D.den < D.num := by
  unfold Q2.blt Q2.ofInt
  simp

theorem Q2.ble_ofInt_right (m : ℤ) (D : Q2) :
    Q2.ble D (Q2.ofInt m) = true ↔ D.num ≤ m * D.den := by
  unfold Q2.ble Q2.ofInt
  simp

theorem fuelGo_eq (T D : Q2) (hD : D.Wf) : ∀ (n : ℕ) (idx : ℤ),
    fuelGo T D idx n =
      ((((List.range n).map (fun j => idx + Int.ofNat j)).filter
        (fun k => Q2.blt (Q2.ofInt (k * 1000)) D)).map
          (fun k => fuelStopAt T D (k * 1000))) := by
  intro n
  induction n with
  | zero => intro idx; rfl
  | succ n ih =>
    intro idx
    rw [List.range_succ_eq_map, List.map_cons, List.map_map]
    have hfun : ((fun j => idx + Int.ofNat j) ∘ Nat.succ) =
        fun j => (idx + 1) + Int.ofNat j := by
      funext j
      simp only [Function.comp_apply, Int.ofNat_eq_coe, Nat.succ_eq_add_one]
      push_cast
      ring
    rw [hfun]
    have hzero : idx + Int.ofNat 0 = idx := by
      simp
    rw [hzero]
    unfold fuelGo
    split
    · rename_i hstop
      have hge : D.num ≤ idx * 1000 * D.den := (Q2.ble_ofInt_right _ D).mp hstop
      have hnil : ((idx :: (List.range n).map (fun j => (idx + 1) + Int.ofNat j)).filter
          (fun k => Q2.blt (Q2.ofInt (k * 1000)) D)) = [] := by
        rw [List.filter_eq_nil_iff]
        intro k hk
        have hkge : idx ≤ k := by
          rcases List.mem_cons.mp hk with rfl | hk
          · exact le_refl _
          · obtain ⟨j, _, rfl⟩ := List.mem_map.mp hk
            have : (0 : ℤ) ≤ Int.ofNat j := Int.natCast_nonneg j
            omega
        intro hcon
        have hlt := (Q2.blt_ofInt_left _ D).mp hcon
        have hmono : idx * 1000 * D.den ≤ k * 1000 * D.den := by
          have hpos : (0 : ℤ) < 1000 * D.den := by
            have := hD
            unfold Q2.Wf at this
            nlinarith
          nlinarith
        omega
      rw [hnil]
      rfl
    · rename_i hstop
      have hlt : idx * 1000 * D.den < D.num := by
        have hnot : ¬ (D.num ≤ idx * 1000 * D.den) := by
          intro hcon
          exact hstop ((Q2.ble_ofInt_right _ D).mpr hcon)
        omega
      rw [List.filter_cons]
      rw [if_pos (by exact (Q2.blt_ofInt_left _ D).mpr hlt)]
      rw [List.map_cons]
      rw [ih (idx + 1)]

/-- Claim C5 counterexample: for distance 3000 miles and driving duration
10 hours the code's first fuel stop carries eta 3.33 (the float rounding
of 10/3 to two decimals), not T × (marker / D) = 10/3 as the claim
states. -/
theorem fuel_stop_eta_rounding_counterexample :
    ((estimate_stops ⟨10, 1⟩ ⟨3000, 1⟩).filter (fun s => s.type = StopType.fuelStop)).map
        (fun s => s.eta_hours) =
      [⟨7498493379571876, 2251799813685248⟩, ⟨7509752378640302, 1125899906842624⟩] ∧
    Q2.toRat ⟨7498493379571876, 2251799813685248⟩ ≠ 10 * ((1000 : ℚ) / 3000) := by
  refine ⟨by decide, ?_⟩
  norm_num [Q2.toRat]

/-- Claim C5, amended: the planner emits one fuel stop per full 1,000-mile
increment strictly below the distance (the filter characterizes exactly
those increments), each of duration 0.5 h with eta equal to
T × (marker / D) computed in binary64 and rounded to two decimals (clamped
to [0, T]); in the claim's scenario D = 2500, T = 40 there are exactly two
fuel stops with eta exactly 16 and 32 hours. -/
theorem estimate_stops_fuel_spec (T D : Q2) (hT : Q2.blt 0 T = true) (hD : D.Wf) :
    ((estimate_stops T D).filter (fun s => s.type = StopType.fuelStop)).Perm
      ((markersBelow D).map (fun k => fuelStopAt T D (k * 1000))) ∧
    (∀ k : ℤ, k ∈ markersBelow D ↔ (1 ≤ k ∧ Q2.blt (Q2.ofInt (k * 1000)) D = true)) ∧
    ((estimate_stops ⟨40, 1⟩ ⟨2500, 1⟩).filter (fun s => s.type = StopType.fuelStop) =
      [⟨StopType.fuelStop, ⟨4503599627370496, 281474976710656⟩, ⟨1, 2⟩⟩,
       ⟨StopType.fuelStop, ⟨4503599627370496, 140737488355328⟩, ⟨1, 2⟩⟩]) ∧
    Q2.toRat ⟨4503599627370496, 281474976710656⟩ = 16 ∧
    Q2.toRat ⟨4503599627370496, 140737488355328⟩ = 32 := by
  have hden : (0 : ℤ) < D.den := hD
  have hc : (0 : ℤ) < D.den * 1000 := by nlinarith
  have hfc : fuelCount D = (D.num / (D.den * 1000)).toNat := by
    unfold fuelCount Q2.div Q2.floor
    norm_num
  refine ⟨?_, ?_, by decide, by norm_num [Q2.toRat], by norm_num [Q2.toRat]⟩
  · have hTble : ¬ (T.ble 0 = true) := by
      intro hcon
      unfold Q2.blt at hT
      unfold Q2.ble at hcon
      have h0n : (0 : Q2).num = 0 := rfl
      have h0d : (0 : Q2).den = 1 := rfl
      simp only [decide_eq_true_eq, h0n, h0d] at hT hcon
      omega
    unfold estimate_stops
    rw [if_neg hTble]
    refine ((sortStops_perm _).filter _).trans ?_
    rw [List.filter_append, List.filter_append, breakGo_no_fuel, restStops_no_fuel,
      List.append_nil, List.append_nil]
    by_cases hDpos : Q2.blt 0 D = true
    · rw [if_pos hDpos]
      unfold fuelStopsList
      rw [fuelGo_all_fuel T D (fuelCount D) 1, fuelGo_eq T D hD (fuelCount D) 1]
      unfold markersBelow
      exact List.Perm.refl _
    · rw [if_neg hDpos]
      have hnum : D.num ≤ 0 := by
        unfold Q2.blt at hDpos
        have h0n : (0 : Q2).num = 0 := rfl
        have h0d : (0 : Q2).den = 1 := rfl
        simp only [decide_eq_true_eq, h0n, h0d] at hDpos
        omega
      have hzero : fuelCount D = 0 := by
        rw [hfc]
        refine Int.toNat_eq_zero.mpr ?_
        calc D.num / (D.den * 1000) ≤ 0 / (D.den * 1000) := Int.ediv_le_ediv hc hnum
          _ = 0 := Int.zero_ediv _
      unfold markersBelow
      rw [hzero]
      simp
  · intro k
    unfold markersBelow
    rw [List.mem_filter]
    constructor
    · rintro ⟨hmem, hblt⟩
      obtain ⟨j, _, rfl⟩ := List.mem_map.mp hmem
      have : (0 : ℤ) ≤ Int.ofNat j := Int.natCast_nonneg j
      exact ⟨by omega, hblt⟩
    · rintro ⟨hk1, hblt⟩
      refine ⟨?_, hblt⟩
      have hlt : k * 1000 * D.den < D.num := (Q2.blt_ofInt_left _ D).mp hblt
      have hle : k ≤ D.num / (D.den * 1000) := by
        rw [Int.le_ediv_iff_mul_le hc]
        nlinarith
      have hnn : (0 : ℤ) ≤ D.num / (D.den * 1000) := le_trans (by omega : (0 : ℤ) ≤ k) hle
      have hkc : k ≤ (fuelCount D : ℤ) := by
        rw [hfc]
        rw [Int.toNat_of_nonneg hnn]
        exact hle
      refine List.mem_map.mpr ⟨(k - 1).toNat, List.mem_range.mpr ?_, ?_⟩
      · omega
      · simp only [Int.ofNat_eq_coe]
        omega

/-- Witness for the amended C5 theorem at the claim's scenario. -/
theorem estimate_stops_fuel_spec_witness :
    Q2.blt 0 ⟨40, 1⟩ = true ∧ Q2.Wf ⟨2500, 1⟩ ∧
    ((estimate_stops ⟨40, 1⟩ ⟨2500, 1⟩).filter (fun s => s.type = StopType.fuelStop)).Perm
      ((markersBelow ⟨2500, 1⟩).map (fun k => fuelStopAt ⟨40, 1⟩ ⟨2500, 1⟩ (k * 1000))) :=
  ⟨by decide, by decide,
    (estimate_stops_fuel_spec ⟨40, 1⟩ ⟨2500, 1⟩ (by decide) (by decide)).1⟩

/- ### Day partitioner: `_build_eld_logs` (src/api/views.py:1031-1118) -/

/-- The per-segment clip loop: while the cursor is before the segment end,
clip to the current day's boundary, emit the piece keyed by the cursor's
calendar day, advance the cursor.  The fuel argument bounds the iteration
count; `clipSegment` supplies a sufficient bound and `clipGo_congr` shows
the result is fuel-independent from there on (the loop terminates). -/
def clipGo (status : DutyStatus) : ℕ → ℤ → ℤ → List (ℤ × Seg)
  | 0, _, _ => []
  | fuel + 1, current, e =>
    if current < e then
      let next_day_start := floorDay current + usPerDay
      let segment_end := min e next_day_start
      if segment_end ≤ current then []
      else (dayIndex current, ⟨status, current, segment_end⟩) ::
        clipGo status fuel segment_end e
    else []

/-- The clip loop run with the sufficient fuel `(e - current).toNat`
(the cursor advances by at least one microsecond per iteration). -/
def clipSegment (status : DutyStatus) (current e : ℤ) : List (ℤ × Seg) :=
  clipGo status (e - current).toNat current e

theorem clipGo_nil_of_le (status : DutyStatus) (g : ℕ) (cur e : ℤ) (h : e ≤ cur) :
    clipGo status g cur e = [] := by
  cases g with
  | zero => rfl
  | succ g =>
    unfold clipGo
    rw [if_neg (by omega)]

theorem clipGo_congr (status : DutyStatus) : ∀ (f g : ℕ) (cur e : ℤ),
    (e - cur).toNat ≤ f → (e - cur).toNat ≤ g →
    clipGo status f cur e = clipGo status g cur e := by
  intro f
  induction f with
  | zero =>
    intro g cur e hf _
    have : e ≤ cur := by omega
    rw [clipGo_nil_of_le status 0 cur e this, clipGo_nil_of_le status g cur e this]
  | succ f ih =>
    intro g cur e hf hg
    by_cases hlt : cur < e
    · cases g with
      | zero =>
        have : ¬ cur < e := by omega
        exact absurd hlt this
      | succ g =>
        unfold clipGo
        rw [if_pos hlt, if_pos hlt]
        have hnext : cur < floorDay cur + usPerDay := by
          have h1 : cur % usPerDay < usPerDay := Int.emod_lt_of_pos cur (by decide)
          have h2 : usPerDay * (cur / usPerDay) + cur % usPerDay = cur := Int.ediv_add_emod cur usPerDay
          unfold floorDay
          omega
        have hadv : cur < min e (floorDay cur + usPerDay) := lt_min hlt hnext
        rw [if_neg (by omega), if_neg (by omega)]
        have hle : min e (floorDay cur + usPerDay) ≤ e := min_le_left _ _
        have hrec : (e - min e (floorDay cur + usPerDay)).toNat ≤ f := by omega
        have hrec' : (e - min e (floorDay cur + usPerDay)).toNat ≤ g := by omega
        rw [ih g (min e (floorDay cur + usPerDay)) e hrec hrec']
    · rw [clipGo_nil_of_le status _ cur e (by omega), clipGo_nil_of_le status g cur e (by omega)]

theorem clipGo_length_le (status : DutyStatus) : ∀ (f : ℕ) (cur e : ℤ),
    (clipGo status f cur e).length ≤ f := by
  intro f
  induction f with
  | zero => intro cur e; simp [clipGo]
  | succ f ih =>
    intro cur e
    unfold clipGo
    split
    · dsimp only
      split
      · simp
      · simpa using ih _ e
    · simp

/-- Claim C2: the per-segment clip loop of the Day Partitioner terminates.
With any fuel of at least `(en - st)` microseconds of iterations the loop
has already stabilized (the cursor strictly advances each iteration until
it passes the segment end), and it emits at most that many raw entries —
in particular finitely many. -/
theorem clip_loop_terminates (status : DutyStatus) (st en : ℤ) (h : st < en) :
    (∀ f : ℕ, (en - st).toNat ≤ f →
      clipGo status f st en = clipSegment status st en) ∧
    (clipSegment status st en).length ≤ (en - st).toNat := by
  constructor
  · intro f hf
    exact clipGo_congr status f (en - st).toNat st en hf (le_refl _)
  · exact clipGo_length_le status _ st en

/-- Witness for the C2 termination theorem: a 30-hour segment (spanning
two midnights) stabilizes at its fuel bound. -/
theorem clip_loop_terminates_witness :
    (0 : ℤ) < 108000000000 ∧
    ((∀ f : ℕ, ((108000000000 : ℤ) - 0).toNat ≤ f →
      clipGo DutyStatus.driving f 0 108000000000 = clipSegment DutyStatus.driving 0 108000000000) ∧
    (clipSegment DutyStatus.driving 0 108000000000).length ≤ ((108000000000 : ℤ) - 0).toNat) :=
  ⟨by decide, clip_loop_terminates DutyStatus.driving 0 108000000000 (by decide)⟩

/-- One Python `logs_by_date.setdefault(key, []).append(entry)` step on an
insertion-ordered association list. -/
def addToBucket (buckets : List (ℤ × List Seg)) (key : ℤ) (entry : Seg) :
    List (ℤ × List Seg) :=
  match buckets with
  | [] => [(key, [entry])]
  | (k, es) :: rest =>
    if k = key then (k, es ++ [entry]) :: rest
    else (k, es) :: addToBucket rest key entry

/-- The day-keyed raw pieces of one segment: convert both endpoints to
local time (adding the fixed zone offset), skip the segment if degenerate
after conversion, then run the clip loop. -/
def segPieces (off : ℤ) (s : Seg) : List (ℤ × Seg) :=
  if s.end_time + off ≤ s.start_time + off then []
  else clipSegment s.status (s.start_time + off) (s.end_time + off)

/-- The `logs_by_date` dictionary after the clip phase, as an
insertion-ordered association list. -/
def collectBuckets (off : ℤ) (segments : List Seg) : List (ℤ × List Seg) :=
  segments.foldl
    (fun b s => (segPieces off s).foldl (fun b p => addToBucket b p.1 p.2) b) []

/-- Insertion step for sorting the buckets by date key (ISO date strings
sort exactly like the day index). -/
def insertBucket (x : ℤ × List Seg) :
    List (ℤ × List Seg) → List (ℤ × List Seg)
  | [] => [x]
  | y :: l => if y.1 ≤ x.1 then y :: insertBucket x l else x :: y :: l

/-- The buckets in ascending date order (`sorted(logs_by_date.items())`). -/
def sortBuckets (l : List (ℤ × List Seg)) : List (ℤ × List Seg) :=
  l.foldl (fun acc x => insertBucket x acc) []

/-- The normalization pass of `_build_eld_logs` over one day's sorted raw
entries: clamp each entry to the day window, skip entries degenerate after
clamping, synthesize an Off-Duty filler when the clamped start is past the
cursor, and append a final Off-Duty filler up to 23:59:59.999999. -/
def normGo (day_start day_end : ℤ) : ℤ → List Seg → List Seg
  | cursor, [] => if cursor < day_end then [⟨DutyStatus.off_duty, cursor, day_end⟩] else []
  | cursor, entry :: rest =>
    let s := max day_start entry.start_time
    let en := min day_end entry.end_time
    if en ≤ s then normGo day_start day_end cursor rest
    else
      (if cursor < s then [⟨DutyStatus.off_duty, cursor, s⟩] else []) ++
        (⟨entry.status, s, en⟩ :: normGo day_start day_end en rest)

/-- One emitted ELD day log. -/
structure DayLog where
  date : ℤ
  entries : List Seg
deriving DecidableEq

/-- Embedding of `_build_eld_logs` for a fixed-offset time zone: clip each
segment into day-keyed buckets, sort the buckets by date, sort each day's
entries by start, then normalize the day (the serialization of timestamps
to ISO strings is presentation-only and not modelled). -/
def build_eld_logs (off : ℤ) (segments : List Seg) : List DayLog :=
  (sortBuckets (collectBuckets off segments)).filterMap (fun b =>
    match sortByStart b.2 with
    | [] => none
    | first :: rest =>
      let day_start := floorDay first.start_time
      let day_end := day_start + usPerDay - 1
      some ⟨b.1, normGo day_start day_end day_start (first :: rest)⟩)

/-- Exact tiling of the window `[cursor, stop]`: the entries are nonempty,
consecutive (each begins where the previous ended), non-degenerate, start
at `cursor` and end at `stop`. -/
def tilesFrom (cursor stop : ℤ) : List Seg → Bool
  | [] => false
  | [p] => decide (p.start_time = cursor ∧ cursor < p.end_time ∧ p.end_time = stop)
  | p :: q :: rest =>
    decide (p.start_time = cursor ∧ cursor < p.end_time) && tilesFrom p.end_time stop (q :: rest)

/- ### Bucket machinery lemmas for the day-tiling proof -/

/-- Association-list lookup (first match, default empty). -/
def bucketGet (buckets : List (ℤ × List Seg)) (k : ℤ) : List Seg :=
  match buckets with
  | [] => []
  | (k', es) :: rest => if k' = k then es else bucketGet rest k

theorem addToBucket_get (b : List (ℤ × List Seg)) (k : ℤ) (p : Seg) (k' : ℤ) :
    bucketGet (addToBucket b k p) k' =
      if k = k' then bucketGet b k' ++ [p] else bucketGet b k' := by
  induction b with
  | nil =>
    by_cases hk : k = k' <;> simp [addToBucket, bucketGet, hk]
  | cons hd rest ih =>
    obtain ⟨k0, es⟩ := hd
    unfold addToBucket
    by_cases h0 : k0 = k
    · subst h0
      rw [if_pos rfl]
      by_cases hk : k0 = k'
      · subst hk
        simp [bucketGet]
      · simp [bucketGet, hk]
    · rw [if_neg h0]
      by_cases hk : k0 = k'
      · subst hk
        have : ¬ k = k0 := fun hcon => h0 hcon.symm
        simp [bucketGet, this]
      · simp [bucketGet, hk, ih]

theorem foldl_addToBucket_get (stream : List (ℤ × Seg)) :
    ∀ (b : List (ℤ × List Seg)) (k : ℤ),
    bucketGet (stream.foldl (fun b p => addToBucket b p.1 p.2) b) k =
      bucketGet b k ++ (stream.filter (fun p => p.1 = k)).map (fun p => p.2) := by
  induction stream with
  | nil => intro b k; simp
  | cons p rest ih =>
    intro b k
    simp only [List.foldl_cons, List.filter_cons]
    rw [ih (addToBucket b p.1 p.2) k, addToBucket_get]
    by_cases hk : p.1 = k
    · rw [if_pos hk, if_pos (by simpa using hk)]
      simp
    · rw [if_neg hk, if_neg (by simpa using hk)]

theorem addToBucket_keys (b : List (ℤ × List Seg)) (k : ℤ) (p : Seg) :
    (addToBucket b k p).map Prod.fst =
      if k ∈ b.map Prod.fst then b.map Prod.fst else b.map Prod.fst ++ [k] := by
  induction b with
  | nil => simp [addToBucket]
  | cons hd rest ih =>
    obtain ⟨k0, es⟩ := hd
    unfold addToBucket
    by_cases h0 : k0 = k
    · subst h0
      rw [if_pos rfl]
      simp
    · rw [if_neg h0]
      have hne : ¬ k = k0 := fun hcon => h0 hcon.symm
      by_cases hmem : k ∈ rest.map Prod.fst
      · simp only [List.map_cons, ih, if_pos hmem]
        rw [if_pos]
        simp [List.mem_cons, hmem]
      · simp only [List.map_cons, ih, if_neg hmem]
        rw [if_neg]
        · simp
        · simp [List.mem_cons, hmem, hne]

theorem addToBucket_nodup (b : List (ℤ × List Seg)) (k : ℤ) (p : Seg)
    (h : (b.map Prod.fst).Nodup) : ((addToBucket b k p).map Prod.fst).Nodup := by
  rw [addToBucket_keys]
  by_cases hmem : k ∈ b.map Prod.fst
  · rwa [if_pos hmem]
  · rw [if_neg hmem]
    rw [List.nodup_append]
    refine ⟨h, List.nodup_singleton k, ?_⟩
    intro a ha
    simp only [List.mem_singleton]
    intro hcon
    subst hcon
    exact hmem ha

theorem foldl_addToBucket_nodup (stream : List (ℤ × Seg)) :
    ∀ b : List (ℤ × List Seg), (b.map Prod.fst).Nodup →
    ((stream.foldl (fun b p => addToBucket b p.1 p.2) b).map Prod.fst).Nodup := by
  induction stream with
  | nil => intro b h; simpa using h
  | cons p rest ih =>
    intro b h
    simp only [List.foldl_cons]
    exact ih _ (addToBucket_nodup b p.1 p.2 h)

theorem bucketGet_of_mem (b : List (ℤ × List Seg)) (k : ℤ) (es : List Seg)
    (hnd : (b.map Prod.fst).Nodup) (hmem : (k, es) ∈ b) : bucketGet b k = es := by
  induction b with
  | nil => simp at hmem
  | cons hd rest ih =>
    obtain ⟨k0, es0⟩ := hd
    rcases List.mem_cons.mp hmem with heq | hmem'
    · obtain ⟨h1, h2⟩ := Prod.mk.inj heq.symm
      subst h1
      subst h2
      simp [bucketGet]
    · have hk0 : k0 ≠ k := by
        intro hcon
        subst hcon
        have : k0 ∈ rest.map Prod.fst := by
          exact List.mem_map.mpr ⟨(k0, es), hmem', rfl⟩
        simp only [List.map_cons, List.nodup_cons] at hnd
        exact hnd.1 this
      unfold bucketGet
      rw [if_neg hk0]
      exact ih (by simpa using (List.nodup_cons.mp (by simpa using hnd)).2) hmem'

/- ### Properties of the clip phase -/

theorem floorDay_spec (t : ℤ) : floorDay t ≤ t ∧ t < floorDay t + usPerDay := by
  have h2 := Int.ediv_add_emod t usPerDay
  have h3 := Int.emod_nonneg t (show usPerDay ≠ 0 by decide)
  have h4 := Int.emod_lt_of_pos t (show (0 : ℤ) < usPerDay by decide)
  unfold floorDay
  omega

theorem dayIndex_eq_of_bounds {t k : ℤ} (h1 : usPerDay * k ≤ t)
    (h2 : t < usPerDay * k + usPerDay) : dayIndex t = k := by
  unfold dayIndex usPerDay at *
  omega

theorem floorDay_eq_mul (t : ℤ) : floorDay t = usPerDay * dayIndex t := rfl

/-- Each raw piece of the clip loop lies inside its key's calendar day,
is non-degenerate, stays within the clipped range, and pieces are emitted
in chronological non-overlapping order. -/
theorem clipGo_pieces (status : DutyStatus) : ∀ (f : ℕ) (cur e : ℤ),
    (∀ p ∈ clipGo status f cur e,
      p.1 = dayIndex p.2.start_time ∧
      cur ≤ p.2.start_time ∧
      p.2.start_time < p.2.end_time ∧
      p.2.end_time ≤ e ∧
      p.2.end_time ≤ usPerDay * p.1 + usPerDay) ∧
    List.Pairwise (fun p q => p.2.end_time ≤ q.2.start_time) (clipGo status f cur e) := by
  intro f
  induction f with
  | zero =>
    intro cur e
    constructor
    · intro p hp
      simp [clipGo] at hp
    · simp [clipGo]
  | succ f ih =>
    intro cur e
    by_cases hlt : cur < e
    · have hnext := floorDay_spec cur
      have hadv : cur < min e (floorDay cur + usPerDay) := lt_min hlt (by omega)
      have hunf : clipGo status (f + 1) cur e =
          (dayIndex cur, ⟨status, cur, min e (floorDay cur + usPerDay)⟩) ::
            clipGo status f (min e (floorDay cur + usPerDay)) e := by
        simp only [clipGo]
        rw [if_pos hlt]
        rw [if_neg (by omega)]
      obtain ⟨ihmem, ihpw⟩ := ih (min e (floorDay cur + usPerDay)) e
      rw [hunf]
      constructor
      · intro p hp
        rcases List.mem_cons.mp hp with rfl | hp
        · refine ⟨rfl, le_refl _, hadv, min_le_left _ _, ?_⟩
          calc min e (floorDay cur + usPerDay) ≤ floorDay cur + usPerDay := min_le_right _ _
            _ = usPerDay * dayIndex cur + usPerDay := by rw [floorDay_eq_mul]
        · obtain ⟨hk, hcur, hlt2, hend, hday⟩ := ihmem p hp
          exact ⟨hk, le_trans (le_of_lt hadv) hcur, hlt2, hend, hday⟩
      · rw [List.pairwise_cons]
        refine ⟨?_, ihpw⟩
        intro q hq
        exact (ihmem q hq).2.1
    · constructor
      · intro p hp
        rw [clipGo_nil_of_le status _ cur e (by omega)] at hp
        simp at hp
      · rw [clipGo_nil_of_le status _ cur e (by omega)]
        exact List.Pairwise.nil

/-- Piece properties at the segment level (local endpoints are the stored
ones shifted by the zone offset). -/
theorem segPieces_props (off : ℤ) (s : Seg) :
    (∀ p ∈ segPieces off s,
      p.1 = dayIndex p.2.start_time ∧
      s.start_time + off ≤ p.2.start_time ∧
      p.2.start_time < p.2.end_time ∧
      p.2.end_time ≤ s.end_time + off ∧
      p.2.end_time ≤ usPerDay * p.1 + usPerDay) ∧
    List.Pairwise (fun p q => p.2.end_time ≤ q.2.start_time) (segPieces off s) := by
  unfold segPieces
  split
  · constructor
    · intro p hp
      simp at hp
    · exact List.Pairwise.nil
  · exact clipGo_pieces s.status _ (s.start_time + off) (s.end_time + off)

/-- The nested fold of `collectBuckets` is the fold over the flattened
piece stream. -/
theorem collectBuckets_eq (off : ℤ) (segments : List Seg) :
    collectBuckets off segments =
      (segments.flatMap (segPieces off)).foldl (fun b p => addToBucket b p.1 p.2) [] := by
  unfold collectBuckets
  generalize ([] : List (ℤ × List Seg)) = b
  induction segments generalizing b with
  | nil => rfl
  | cons s rest ih =>
    rw [List.flatMap_cons, List.foldl_append, List.foldl_cons]
    exact ih _

/-- The flattened piece stream of a chronological, non-overlapping segment
list is itself chronological and non-overlapping. -/
theorem stream_pairwise (off : ℤ) (segments : List Seg)
    (hsorted : List.Pairwise (fun a b => a.end_time ≤ b.start_time) segments) :
    List.Pairwise (fun p q : ℤ × Seg => p.2.end_time ≤ q.2.start_time)
      (segments.flatMap (segPieces off)) := by
  induction segments with
  | nil => exact List.Pairwise.nil
  | cons s rest ih =>
    rw [List.pairwise_cons] at hsorted
    rw [List.flatMap_cons, List.pairwise_append]
    refine ⟨(segPieces_props off s).2, ih hsorted.2, ?_⟩
    intro p hp q hq
    obtain ⟨s2, hs2, hq2⟩ := List.mem_flatMap.mp hq
    have h1 : p.2.end_time ≤ s.end_time + off := ((segPieces_props off s).1 p hp).2.2.2.1
    have h2 : s2.start_time + off ≤ q.2.start_time := ((segPieces_props off s2).1 q hq2).2.1
    have h3 : s.end_time ≤ s2.start_time := hsorted.1 s2 hs2
    omega

theorem insertBucket_perm (x : ℤ × List Seg) (l : List (ℤ × List Seg)) :
    (insertBucket x l).Perm (x :: l) := by
  induction l with
  | nil => exact List.Perm.refl _
  | cons y t ih =>
    unfold insertBucket
    split
    · exact ((ih.cons y).trans (List.Perm.swap x y t))
    · exact List.Perm.refl _

theorem sortBuckets_perm (l : List (ℤ × List Seg)) : (sortBuckets l).Perm l := by
  unfold sortBuckets
  have key : ∀ (l acc : List (ℤ × List Seg)),
      (l.foldl (fun acc x => insertBucket x acc) acc).Perm (acc ++ l) := by
    intro l
    induction l with
    | nil => intro acc; simp
    | cons x t ih =>
      intro acc
      simp only [List.foldl_cons]
      refine (ih (insertBucket x acc)).trans ?_
      refine ((insertBucket_perm x acc).append_right t).trans ?_
      simpa using List.perm_middle.symm
  simpa using key l []

/- ### The normalization pass tiles the day -/

theorem tilesFrom_cons (cursor stop : ℤ) (p : Seg) (l : List Seg) :
    tilesFrom cursor stop (p :: l) = true ↔
      (p.start_time = cursor ∧ cursor < p.end_time ∧
        ((l = [] ∧ p.end_time = stop) ∨ tilesFrom p.end_time stop l = true)) := by
  cases l with
  | nil =>
    simp [tilesFrom]
  | cons q rest =>
    simp [tilesFrom]
    tauto

/-- The normalization walk produces an exact tiling of
`[cursor, day_end]` whenever every entry starts at or after the cursor,
is non-degenerate, lies inside the day window (end at most one past
`day_end`, as raw clip pieces do), and the entries are chronological and
non-overlapping; if the cursor has already reached the day end every
remaining entry is degenerate after clamping and nothing is emitted. -/
theorem normGo_tiles (day_start day_end : ℤ) :
    ∀ (entries : List Seg) (cursor : ℤ),
      day_start ≤ cursor → cursor ≤ day_end →
      (∀ p ∈ entries, cursor ≤ p.start_time ∧ p.start_time < p.end_time ∧
        day_start ≤ p.start_time ∧ p.end_time ≤ day_end + 1) →
      List.Pairwise (fun a b => a.end_time ≤ b.start_time) entries →
      (cursor < day_end →
        tilesFrom cursor day_end (normGo day_start day_end cursor entries) = true) ∧
      (cursor = day_end → normGo day_start day_end cursor entries = []) := by
  intro entries
  induction entries with
  | nil =>
    intro cursor h1 h2 _ _
    constructor
    · intro hc
      simp only [normGo]
      rw [if_pos hc]
      rw [tilesFrom_cons]
      exact ⟨rfl, hc, Or.inl ⟨rfl, rfl⟩⟩
    · intro hc
      simp only [normGo]
      rw [if_neg (by omega)]
  | cons entry rest ih =>
    intro cursor h1 h2 hprops hpw
    obtain ⟨hc1, hc2, hc3, hc4⟩ := hprops entry (List.mem_cons_self entry rest)
    rw [List.pairwise_cons] at hpw
    have hsmax : max day_start entry.start_time = entry.start_time := max_eq_right hc3
    by_cases hskip : min day_end entry.end_time ≤ max day_start entry.start_time
    · have hnorm : normGo day_start day_end cursor (entry :: rest) =
          normGo day_start day_end cursor rest := by
        simp only [normGo]
        rw [if_pos hskip]
      rw [hnorm]
      refine ih cursor h1 h2 ?_ hpw.2
      intro q hq
      exact hprops q (List.mem_cons_of_mem entry hq)
    · have hde : day_start ≤ day_end := by omega
      have hen1 : min day_end entry.end_time ≤ day_end := min_le_left _ _
      have hen2 : entry.start_time < min day_end entry.end_time := by
        rw [hsmax] at hskip
        omega
      have hnorm : normGo day_start day_end cursor (entry :: rest) =
          (if cursor < max day_start entry.start_time then
            [⟨DutyStatus.off_duty, cursor, max day_start entry.start_time⟩] else []) ++
          (⟨entry.status, max day_start entry.start_time, min day_end entry.end_time⟩ ::
            normGo day_start day_end (min day_end entry.end_time) rest) := by
        simp only [normGo]
        rw [if_neg hskip]
      have hrest : ∀ q ∈ rest, min day_end entry.end_time ≤ q.start_time ∧
          q.start_time < q.end_time ∧ day_start ≤ q.start_time ∧
          q.end_time ≤ day_end + 1 := by
        intro q hq
        obtain ⟨_, hq2, hq3, hq4⟩ := hprops q (List.mem_cons_of_mem entry hq)
        have := hpw.1 q hq
        have := min_le_right day_end entry.end_time
        exact ⟨by omega, hq2, hq3, hq4⟩
      obtain ⟨ih1, ih2⟩ := ih (min day_end entry.end_time) (by omega) hen1 hrest hpw.2
      rw [hnorm, hsmax]
      constructor
      · intro hc
        have hmain : tilesFrom entry.start_time day_end
            (⟨entry.status, entry.start_time, min day_end entry.end_time⟩ ::
              normGo day_start day_end (min day_end entry.end_time) rest) = true := by
          rw [tilesFrom_cons]
          refine ⟨rfl, hen2, ?_⟩
          by_cases hend : min day_end entry.end_time = day_end
          · rw [ih2 hend]
            exact Or.inl ⟨rfl, hend⟩
          · exact Or.inr (ih1 (by omega))
        by_cases hfill : cursor < entry.start_time
        · rw [if_pos hfill, List.singleton_append, tilesFrom_cons]
          refine ⟨rfl, hfill, Or.inr hmain⟩
        · have hceq : cursor = entry.start_time := by omega
          rw [if_neg hfill, List.nil_append]
          rw [hceq]
          exact hmain
      · intro hc
        exfalso
        omega

/- ### Claim C1: the day-tiling invariant -/

/-- Claim C1 counterexample: two overlapping valid segments (Driving
1000–5000 and On-Duty 2000–6000 microseconds of the same day).  The
emitted day log's entries overlap each other, so they do not tile the
24-hour window, although every input segment satisfies end > start. -/
theorem day_tiling_fails_on_overlap :
    (([⟨DutyStatus.driving, 1000, 5000⟩, ⟨DutyStatus.on_duty, 2000, 6000⟩] :
        List Seg).all (fun s => decide (s.start_time < s.end_time))) = true ∧
    ((build_eld_logs 0
        [⟨DutyStatus.driving, 1000, 5000⟩, ⟨DutyStatus.on_duty, 2000, 6000⟩]).all
      (fun l => tilesFrom (usPerDay * l.date) (usPerDay * l.date + usPerDay - 1)
        l.entries)) = false := by
  refine ⟨by decide, by decide⟩

/-- Claim C1, amended: for every sorted sequence of non-overlapping
segments with end > start (which is what the Timeline Assembler feeds the
Day Partitioner), every emitted day log exactly tiles the local window
[00:00:00.000000, 23:59:59.999999] of its date: entries are consecutive
with no gap and no overlap, starting at local midnight and ending at
23:59:59.999999.  With overlapping input the normalization cursor is
ignored for the overlapped entries and tiling fails. -/
theorem eld_day_tiling (off : ℤ) (segments : List Seg)
    (hvalid : ∀ s ∈ segments, s.start_time < s.end_time)
    (hsorted : List.Pairwise (fun a b => a.end_time ≤ b.start_time) segments) :
    ∀ log ∈ build_eld_logs off segments,
      tilesFrom (usPerDay * log.date) (usPerDay * log.date + usPerDay - 1)
        log.entries = true := by
  intro log hlog
  unfold build_eld_logs at hlog
  obtain ⟨b, hb, hsome⟩ := List.mem_filterMap.mp hlog
  have hbmem : b ∈ collectBuckets off segments := (sortBuckets_perm _).mem_iff.mp hb
  -- bucket content: the pieces of the flattened stream with this key
  have hnodup : ((collectBuckets off segments).map Prod.fst).Nodup := by
    rw [collectBuckets_eq]
    exact foldl_addToBucket_nodup _ [] (by simp)
  have hget : bucketGet (collectBuckets off segments) b.1 = b.2 :=
    bucketGet_of_mem _ b.1 b.2 hnodup (by
      obtain ⟨k, es⟩ := b
      exact hbmem)
  have hcontent : b.2 =
      (((segments.flatMap (segPieces off)).filter (fun p => p.1 = b.1)).map
        (fun p => p.2)) := by
    rw [← hget, collectBuckets_eq, foldl_addToBucket_get]
    simp [bucketGet]
  -- entry-level facts
  have hstream := stream_pairwise off segments hsorted
  have hmemprops : ∀ q ∈ b.2,
      usPerDay * b.1 ≤ q.start_time ∧ q.start_time < q.end_time ∧
      q.end_time ≤ usPerDay * b.1 + usPerDay := by
    intro q hq
    rw [hcontent] at hq
    obtain ⟨p, hp, rfl⟩ := List.mem_map.mp hq
    have hpk : p.1 = b.1 := by
      have := (List.mem_filter.mp hp).2
      simpa using this
    have hpstream := (List.mem_filter.mp hp).1
    obtain ⟨s, hs, hps⟩ := List.mem_flatMap.mp hpstream
    obtain ⟨hk, _, hlt, _, hday⟩ := (segPieces_props off s).1 p hps
    have hidx := floorDay_spec p.2.start_time
    rw [floorDay_eq_mul] at hidx
    have hdib : dayIndex p.2.start_time = b.1 := by rw [← hk, hpk]
    rw [hdib] at hidx
    rw [hpk] at hday
    exact ⟨hidx.1, hlt, hday⟩
  have hbpw : List.Pairwise (fun a b => a.end_time ≤ b.start_time) b.2 := by
    rw [hcontent]
    rw [List.pairwise_map]
    exact (hstream.filter _).imp (fun h => h)
  have hbsorted : b.2.Pairwise leStart := by
    refine hbpw.imp_of_mem ?_
    intro x y hx _ hxy
    have := (hmemprops x hx).2.1
    unfold leStart
    omega
  have hsortid : sortByStart b.2 = b.2 := sortByStart_eq_self b.2 hbsorted
  -- destructure the filterMap arm
  rw [hsortid] at hsome
  rcases hb2 : b.2 with _ | ⟨first, rest⟩
  · rw [hb2] at hsome
    simp at hsome
  · rw [hb2] at hsome
    simp only [Option.some.injEq] at hsome
    have hfirstmem : first ∈ b.2 := by
      rw [hb2]
      exact List.mem_cons_self first rest
    obtain ⟨hf1, hf2, hf3⟩ := hmemprops first hfirstmem
    have hdix : dayIndex first.start_time = b.1 :=
      dayIndex_eq_of_bounds hf1 (by omega)
    have hds : floorDay first.start_time = usPerDay * b.1 := by
      rw [floorDay_eq_mul, hdix]
    subst hsome
    simp only
    rw [hds]
    have hprops2 : ∀ p ∈ first :: rest, usPerDay * b.1 ≤ p.start_time ∧
        p.start_time < p.end_time ∧ usPerDay * b.1 ≤ p.start_time ∧
        p.end_time ≤ (usPerDay * b.1 + usPerDay - 1) + 1 := by
      intro p hp
      rw [← hb2] at hp
      obtain ⟨hp1, hp2, hp3⟩ := hmemprops p hp
      exact ⟨hp1, hp2, hp1, by omega⟩
    have hpw2 : List.Pairwise (fun a b => a.end_time ≤ b.start_time) (first :: rest) := by
      rw [← hb2]
      exact hbpw
    have := (normGo_tiles (usPerDay * b.1) (usPerDay * b.1 + usPerDay - 1)
      (first :: rest) (usPerDay * b.1) (le_refl _)
      (by have hpos : usPerDay = 86400000000 := rfl
          omega)
      hprops2 hpw2).1
      (by have hpos : usPerDay = 86400000000 := rfl
          omega)
    simpa using this

/-- Witness for the amended C1 theorem on the spec's own scenario:
Off-Duty 00:00–06:00 then Driving 06:00–14:00 local time. -/
theorem eld_day_tiling_witness :
    (∀ s ∈ ([⟨DutyStatus.off_duty, 0, 21600000000⟩,
        ⟨DutyStatus.driving, 21600000000, 50400000000⟩] : List Seg),
      s.start_time < s.end_time) ∧
    List.Pairwise (fun a b => a.end_time ≤ b.start_time)
      ([⟨DutyStatus.off_duty, 0, 21600000000⟩,
        ⟨DutyStatus.driving, 21600000000, 50400000000⟩] : List Seg) ∧
    (∀ log ∈ build_eld_logs 0
        [⟨DutyStatus.off_duty, 0, 21600000000⟩,
         ⟨DutyStatus.driving, 21600000000, 50400000000⟩],
      tilesFrom (usPerDay * log.date) (usPerDay * log.date + usPerDay - 1)
        log.entries = true) :=
  ⟨by decide, by decide,
    eld_day_tiling 0
      [⟨DutyStatus.off_duty, 0, 21600000000⟩,
       ⟨DutyStatus.driving, 21600000000, 50400000000⟩]
      (by decide) (by decide)⟩

/- ### Trip duty state and the status-event views
(src/api/views.py:391-487, 259-314, 571-598) -/

/-- The duty-state fields of a Trip row that the status views read and
write. -/
structure TripDuty where
  current_status : Option DutyStatus
  current_status_started_at : Option ℤ
  completed_at : Option ℤ
deriving DecidableEq

/-- Embedding of `StatusEventCreateView.post` after request parsing: the
guard chain (completed trip, no open interval, effective time not strictly
after the open start) runs before any write; on success one StatusEvent
row is appended and the open interval is replaced atomically.  The result
pairs the new (trip, events) state with the rejection message, if any. -/
def statusEventCreate (trip : TripDuty) (events : List Seg)
    (newStatus : DutyStatus) (effective_at : ℤ) :
    (TripDuty × List Seg) × Option String :=
  if trip.completed_at ≠ none then
    ((trip, events), some "Trip is already completed.")
  else
    match trip.current_status, trip.current_status_started_at with
    | some cs, some started =>
      if effective_at ≤ started then
        ((trip, events), some "Status change must be after the current status start time.")
      else
        (({ trip with
            current_status := some newStatus
            current_status_started_at := some effective_at },
          events ++ [⟨cs, started, effective_at⟩]), none)
    | _, _ => ((trip, events), some "Trip has no active status to close.")

/-- Embedding of `TripCompleteView.post` after request parsing: same guard
chain; on success the final open interval is closed and the trip is marked
completed. -/
def tripComplete (trip : TripDuty) (events : List Seg) (effective_at : ℤ) :
    (TripDuty × List Seg) × Option String :=
  if trip.completed_at ≠ none then
    ((trip, events), some "Trip is already completed.")
  else
    match trip.current_status, trip.current_status_started_at with
    | some cs, some started =>
      if effective_at ≤ started then
        ((trip, events), some "Completion time must be after the current status start time.")
      else
        (({ trip with
            current_status := none
            current_status_started_at := none
            completed_at := some effective_at },
          events ++ [⟨cs, started, effective_at⟩]), none)
    | _, _ => ((trip, events), some "Trip has no active status to close.")

/-- Claim C8: a status-change or completion request against a completed
trip, or a trip with no open interval (either open field null), or whose
effective time is not strictly after the open interval's start, is
rejected and mutates nothing: the trip fields and the StatusEvent list
are returned unchanged, with a client error message. -/
theorem status_event_rejection_atomic (trip : TripDuty) (events : List Seg)
    (ns : DutyStatus) (eff : ℤ)
    (hrej : trip.completed_at ≠ none ∨ trip.current_status = none ∨
      trip.current_status_started_at = none ∨
      (∃ b, trip.current_status_started_at = some b ∧ eff ≤ b)) :
    (statusEventCreate trip events ns eff).1 = (trip, events) ∧
    (statusEventCreate trip events ns eff).2 ≠ none ∧
    (tripComplete trip events eff).1 = (trip, events) ∧
    (tripComplete trip events eff).2 ≠ none := by
  obtain ⟨cs, sa, ca⟩ := trip
  cases ca with
  | some c => simp [statusEventCreate, tripComplete]
  | none =>
    rcases hrej with h | h | h | ⟨b, hb, hle⟩
    · exact absurd rfl h
    · have hcs : cs = none := h
      subst hcs
      simp [statusEventCreate, tripComplete]
    · have hsa : sa = none := h
      subst hsa
      cases cs <;> simp [statusEventCreate, tripComplete]
    · have hsa : sa = some b := hb
      subst hsa
      cases cs with
      | none => simp [statusEventCreate, tripComplete]
      | some c0 => simp [statusEventCreate, tripComplete, hle]

/-- Witness for the C8 rejection theorem: completion time equal to the
open interval's start is rejected without any state change. -/
theorem status_event_rejection_atomic_witness :
    ((⟨some DutyStatus.driving, some 100, none⟩ : TripDuty).completed_at ≠ none ∨
      (⟨some DutyStatus.driving, some 100, none⟩ : TripDuty).current_status = none ∨
      (⟨some DutyStatus.driving, some 100, none⟩ : TripDuty).current_status_started_at = none ∨
      (∃ b, (⟨some DutyStatus.driving, some 100, none⟩ : TripDuty).current_status_started_at =
        some b ∧ (100 : ℤ) ≤ b)) ∧
    (statusEventCreate ⟨some DutyStatus.driving, some 100, none⟩ [] DutyStatus.on_duty 100).1 =
      (⟨some DutyStatus.driving, some 100, none⟩, []) ∧
    (tripComplete ⟨some DutyStatus.driving, some 100, none⟩ [] 100).2 ≠ none :=
  have h := status_event_rejection_atomic ⟨some DutyStatus.driving, some 100, none⟩ []
    DutyStatus.on_duty 100 (Or.inr (Or.inr (Or.inr ⟨100, rfl, le_refl _⟩)))
  ⟨Or.inr (Or.inr (Or.inr ⟨100, rfl, le_refl _⟩)), h.1, h.2.2.2⟩

/- ### Claim C9: at most one active trip per user -/

/-- Whether the user has a trip with completed_at null
(`_get_active_trip` returns one iff this holds). -/
def hasActiveTrip (trips : List TripDuty) : Bool :=
  trips.any (fun t => t.completed_at = none)

/-- The most recent completion time over the user's trips
(`_get_latest_completed_at`). -/
def latestCompletedAt (trips : List TripDuty) : Option ℤ :=
  trips.foldl
    (fun acc t =>
      match t.completed_at, acc with
      | some c, some m => some (max c m)
      | some c, none => some c
      | none, x => x) none

/-- Embedding of `TripCreateView.post` state effect: reject when an active
trip exists, reject a start time before the latest completed trip,
otherwise append one new trip with an open interval and completed_at
null. -/
def createTrip (trips : List TripDuty) (startStatus : DutyStatus) (startTime : ℤ) :
    List TripDuty :=
  if hasActiveTrip trips then trips
  else
    match latestCompletedAt trips with
    | some m =>
      if startTime < m then trips
      else trips ++ [⟨some startStatus, some startTime, none⟩]
    | none => trips ++ [⟨some startStatus, some startTime, none⟩]

/-- The trip-field effect of a status-change request on one trip. -/
def statusChangeTrip (t : TripDuty) (ns : DutyStatus) (eff : ℤ) : TripDuty :=
  (statusEventCreate t [] ns eff).1.1

/-- The trip-field effect of a completion request on one trip. -/
def completeTrip (t : TripDuty) (eff : ℤ) : TripDuty :=
  (tripComplete t [] eff).1.1

/-- One user-visible operation on the user's trips. -/
inductive TripOp where
  | create (startStatus : DutyStatus) (startTime : ℤ)
  | statusChange (idx : ℕ) (newStatus : DutyStatus) (eff : ℤ)
  | complete (idx : ℕ) (eff : ℤ)

/-- The state transition of one operation over the user's trip list. -/
def stepOp (trips : List TripDuty) : TripOp → List TripDuty
  | .create st tm => createTrip trips st tm
  | .statusChange i ns eff =>
    match trips[i]? with
    | some t => trips.set i (statusChangeTrip t ns eff)
    | none => trips
  | .complete i eff =>
    match trips[i]? with
    | some t => trips.set i (completeTrip t eff)
    | none => trips

/-- The number of the user's trips in the Active state. -/
def activeCount (trips : List TripDuty) : ℕ :=
  trips.countP (fun t => t.completed_at = none)

theorem countP_set_le (p : TripDuty → Bool) :
    ∀ (l : List TripDuty) (i : ℕ) (t t' : TripDuty), l[i]? = some t →
    (p t' = true → p t = true) →
    (l.set i t').countP p ≤ l.countP p := by
  intro l
  induction l with
  | nil => intro i t t' h; simp at h
  | cons hd tl ih =>
    intro i t t' hget himp
    cases i with
    | zero =>
      simp only [List.getElem?_cons_zero, Option.some.injEq] at hget
      subst hget
      rw [List.set_cons_zero, List.countP_cons, List.countP_cons]
      by_cases hp : p t' = true
      · rw [if_pos hp, if_pos (himp hp)]
      · rw [if_neg hp]
        omega
    | succ i =>
      simp only [List.getElem?_cons_succ] at hget
      rw [List.set_cons_succ, List.countP_cons, List.countP_cons]
      have := ih i t t' hget himp
      omega

theorem statusChangeTrip_completed (t : TripDuty) (ns : DutyStatus) (eff : ℤ) :
    (statusChangeTrip t ns eff).completed_at = t.completed_at := by
  obtain ⟨cs, sa, ca⟩ := t
  unfold statusChangeTrip statusEventCreate
  cases ca <;> cases cs <;> cases sa <;> simp <;> split <;> simp

theorem completeTrip_completed (t : TripDuty) (eff : ℤ) :
    (completeTrip t eff).completed_at = none → t.completed_at = none := by
  obtain ⟨cs, sa, ca⟩ := t
  unfold completeTrip tripComplete
  cases ca <;> cases cs <;> cases sa <;> simp <;> split <;> simp

theorem hasActive_false_count (trips : List TripDuty)
    (h : hasActiveTrip trips = false) : activeCount trips = 0 := by
  unfold hasActiveTrip at h
  unfold activeCount
  rw [List.countP_eq_zero]
  intro t ht
  have := List.any_eq_false.mp h t ht
  simpa using this

theorem stepOp_preserves (trips : List TripDuty) (op : TripOp)
    (hinv : activeCount trips ≤ 1) : activeCount (stepOp trips op) ≤ 1 := by
  cases op with
  | create st tm =>
    show activeCount (createTrip trips st tm) ≤ 1
    unfold createTrip
    by_cases hact : hasActiveTrip trips = true
    · rw [if_pos hact]
      exact hinv
    · rw [if_neg hact]
      have hzero : activeCount trips = 0 :=
        hasActive_false_count trips (by simpa using hact)
      have happ : ∀ s t, activeCount (trips ++ [(⟨some s, some t, none⟩ : TripDuty)]) = 1 := by
        intro s t
        unfold activeCount at *
        rw [List.countP_append, hzero]
        simp
      split
      · split
        · exact hinv
        · rw [happ]
      · rw [happ]
  | statusChange i ns eff =>
    cases hget : trips[i]? with
    | none => simpa [stepOp, hget] using hinv
    | some t =>
      have hle := countP_set_le (fun t => t.completed_at = none) trips i t
        (statusChangeTrip t ns eff) hget
        (by
          intro hp
          simp only [decide_eq_true_eq] at hp ⊢
          rw [← statusChangeTrip_completed t ns eff]
          exact hp)
      have hstep : stepOp trips (TripOp.statusChange i ns eff) =
          trips.set i (statusChangeTrip t ns eff) := by
        simp [stepOp, hget]
      rw [hstep]
      unfold activeCount at *
      omega
  | complete i eff =>
    cases hget : trips[i]? with
    | none => simpa [stepOp, hget] using hinv
    | some t =>
      have hle := countP_set_le (fun t => t.completed_at = none) trips i t
        (completeTrip t eff) hget
        (by
          intro hp
          simp only [decide_eq_true_eq] at hp ⊢
          exact completeTrip_completed t eff hp)
      have hstep : stepOp trips (TripOp.complete i eff) =
          trips.set i (completeTrip t eff) := by
        simp [stepOp, hget]
      rw [hstep]
      unfold activeCount at *
      omega

/-- Claim C9: trip creation is rejected while an active trip exists, every
operation preserves "at most one active trip", and any operation sequence
from the empty account keeps at most one active trip. -/
theorem at_most_one_active_trip (trips : List TripDuty) (op : TripOp)
    (hinv : activeCount trips ≤ 1) :
    (hasActiveTrip trips = true → ∀ st tm, createTrip trips st tm = trips) ∧
    activeCount (stepOp trips op) ≤ 1 ∧
    (∀ ops : List TripOp, activeCount (ops.foldl stepOp []) ≤ 1) := by
  refine ⟨?_, stepOp_preserves trips op hinv, ?_⟩
  · intro hact st tm
    unfold createTrip
    rw [if_pos hact]
  · intro ops
    have key : ∀ (ops : List TripOp) (s : List TripDuty), activeCount s ≤ 1 →
        activeCount (ops.foldl stepOp s) ≤ 1 := by
      intro ops
      induction ops with
      | nil => intro s hs; simpa using hs
      | cons o rest ih =>
        intro s hs
        simp only [List.foldl_cons]
        exact ih _ (stepOp_preserves s o hs)
    exact key ops [] (by decide)

/-- Witness for the C9 invariant theorem on a concrete two-operation
history. -/
theorem at_most_one_active_trip_witness :
    activeCount [(⟨some DutyStatus.driving, some 0, none⟩ : TripDuty)] ≤ 1 ∧
    (activeCount (stepOp [(⟨some DutyStatus.driving, some 0, none⟩ : TripDuty)]
      (TripOp.create DutyStatus.off_duty 5)) ≤ 1 ∧
    (∀ ops : List TripOp, activeCount (ops.foldl stepOp []) ≤ 1)) :=
  have h := at_most_one_active_trip [(⟨some DutyStatus.driving, some 0, none⟩ : TripDuty)]
    (TripOp.create DutyStatus.off_duty 5) (by decide)
  ⟨by decide, h.2.1, h.2.2⟩

/- ### Claim C10: the route summary's duration buffer
(`_build_route_summary`, src/api/views.py:848-880) -/

/-- The route summary fields derived from the provider's distance and
duration (polyline and failure fallbacks are transport glue, out of the
numeric model; the inputs are the exact decimal values of
`Decimal(str(distance_meters))` and `Decimal(str(duration_seconds))`). -/
structure RouteSummary where
  distance_miles : Q2
  duration_hours : Q2
  stops : List Stop
deriving DecidableEq

/-- Embedding of `_build_route_summary`: miles and driving hours by
Decimal division, a fixed 1.0-hour pickup/dropoff buffer added to the
reported duration, stops estimated from the unbuffered float driving
duration and float miles. -/
def build_route_summary (distance_meters duration_seconds : Q2) : RouteSummary :=
  let distance_miles := decDiv28 distance_meters ⟨1609344, 1000⟩
  let driving_duration_hours := decDiv28 duration_seconds ⟨3600, 1⟩
  let planned_duration_hours := decAdd28 driving_duration_hours ⟨1, 1⟩
  { distance_miles := quantize2 distance_miles
    duration_hours := quantize2 planned_duration_hours
    stops := estimate_stops (roundD driving_duration_hours) (roundD distance_miles) }

/-- Claim C10: the reported duration_hours is the provider's duration in
hours plus the fixed 1.0-hour pickup/dropoff buffer, rounded to two
decimals, while the stop suggestions are computed from the unbuffered
driving duration; at one provider hour the two differ (2.00 vs 1.00). -/
theorem route_summary_buffers_duration (dm ds : Q2) :
    (build_route_summary dm ds).duration_hours =
      quantize2 (decAdd28 (decDiv28 ds ⟨3600, 1⟩) ⟨1, 1⟩) ∧
    (build_route_summary dm ds).stops =
      estimate_stops (roundD (decDiv28 ds ⟨3600, 1⟩))
        (roundD (decDiv28 dm ⟨1609344, 1000⟩)) ∧
    (build_route_summary ⟨1000, 1⟩ ⟨3600, 1⟩).duration_hours ≠
      quantize2 (decDiv28 ⟨3600, 1⟩ ⟨3600, 1⟩) ∧
    Q2.toRat (build_route_summary ⟨1000, 1⟩ ⟨3600, 1⟩).duration_hours = 2 ∧
    Q2.toRat (quantize2 (decDiv28 ⟨3600, 1⟩ ⟨3600, 1⟩)) = 1 := by
  refine ⟨rfl, rfl, by decide, ?_, ?_⟩
  · have hval : (build_route_summary ⟨1000, 1⟩ ⟨3600, 1⟩).duration_hours = ⟨200, 100⟩ := by
      decide
    rw [hval]
    norm_num [Q2.toRat]
  · have hval : quantize2 (decDiv28 ⟨3600, 1⟩ ⟨3600, 1⟩) = ⟨100, 100⟩ := by
      decide
    rw [hval]
    norm_num [Q2.toRat]

end Eld
